import Mathlib

/-!
# Verification of the `depiction` repository's label utilities and notebook helpers

This file gives a shallow embedding of the small pieces of program logic in the
`depiction` repository's notebooks and proves the specified properties about them:

* the one-hot label encoder/decoder pair `one_hot_encoding` / `one_hot_decoding`
  used by `notebooks/celltype_training.ipynb` (the implementation lives in the
  package module `depiction.models.examples.celltype.celltype`, which is not part
  of the notebook sources; it is modelled here from the specification's words);
* `generate_data` from `notebooks/model-zoo.ipynb`, which builds a shuffled
  two-class toy dataset (numpy's random draws and the shuffled index permutation
  are passed in as explicit parameters);
* `get_imagenet_labels` from `notebooks/model-zoo.ipynb`, which inverts an
  index-keyed JSON label map into a positional list.

Vector entries are modelled as rationals so that both hard indicator vectors and
soft probability vectors are covered.
-/

namespace Depiction

/-- Modelled from the spec: first maximal index of a vector, as used by
`one_hot_decoding` (whose source, `depiction.models.examples.celltype.celltype`,
is not under the notebook sources).  The spec says each label is computed as
`argmax(vector) + 1`, "with ties broken by the lowest index".  `argmax [] = 0`
by convention; on a nonempty list it returns the least index holding the
maximal entry. -/
def argmax : List ℚ → Nat
  | [] => 0
  | [_] => 0
  | x :: y :: ys =>
    let j := argmax (y :: ys)
    if x < (y :: ys).getD j 0 then j + 1 else 0

/-- Modelled from the spec: the indicator vector for a one-indexed label `k`,
"an indicator vector of length equal to the number of categories, with exactly
one entry set to 1 and the rest to 0, the set position corresponding to
`category_id - 1`". -/
def indicator (numClasses k : Nat) : List ℚ :=
  (List.range numClasses).map (fun i => if i = k - 1 then (1 : ℚ) else 0)

/-- Modelled from the spec: encoding of a single one-indexed label `k` with an
explicitly supplied `numClasses`.  Produces the indicator vector of length
`numClasses` with a single 1 at position `k - 1`; a label outside
`[1, numClasses]` is an invalid-input error (`none`), never clipped or
wrapped. -/
def encodeOne (numClasses : Nat) (k : Nat) : Option (List ℚ) :=
  if 1 ≤ k ∧ k ≤ numClasses then
    some (indicator numClasses k)
  else
    none

/-- Modelled from the spec: `one_hot_encoding` from
`depiction.models.examples.celltype.celltype` (not under the notebook sources;
the notebook only imports and calls it).  Takes an ordered sequence of
one-indexed labels and the explicit `numClasses`, and maps each label to its
indicator vector; any out-of-range label makes the whole call an invalid-input
error. -/
def one_hot_encoding : List Nat → Nat → Option (List (List ℚ))
  | [], _ => some []
  | k :: ks, numClasses =>
    match encodeOne numClasses k, one_hot_encoding ks numClasses with
    | some v, some vs => some (v :: vs)
    | _, _ => none

/-- Modelled from the spec: `one_hot_decoding` from
`depiction.models.examples.celltype.celltype` (not under the notebook sources).
Takes an ordered sequence of vectors (hard indicator vectors or soft
probability vectors) and the `numClasses` configured elsewhere; a vector whose
length differs from `numClasses` is a shape-mismatch error, otherwise each
vector decodes to the one-indexed label `argmax v + 1`. -/
def one_hot_decoding : List (List ℚ) → Nat → Option (List Nat)
  | [], _ => some []
  | v :: vs, numClasses =>
    if v.length = numClasses then
      match one_hot_decoding vs numClasses with
      | some ks => some ((argmax v + 1) :: ks)
      | none => none
    else
      none

/-- `argmax` returns an index inside a nonempty vector. -/
theorem argmax_lt_length : ∀ (v : List ℚ), v ≠ [] → argmax v < v.length
  | [], h => absurd rfl h
  | [_], _ => by simp [argmax]
  | x :: y :: ys, _ => by
    have ih := argmax_lt_length (y :: ys) (by simp)
    simp only [argmax]
    split
    · simpa using Nat.succ_lt_succ ih
    · simp

/-- The entry at `argmax` is maximal among all entries. -/
theorem getD_le_getD_argmax :
    ∀ (v : List ℚ) (j : Nat), j < v.length → v.getD j 0 ≤ v.getD (argmax v) 0
  | [], _, hj => by simp at hj
  | [x], j, hj => by
    have hj0 : j = 0 := by simpa using Nat.lt_one_iff.mp (by simpa using hj)
    subst hj0
    simp [argmax]
  | x :: y :: ys, j, hj => by
    have ih := fun (i : Nat) (hi : i < (y :: ys).length) => getD_le_getD_argmax (y :: ys) i hi
    simp only [argmax]
    by_cases hx : x < (y :: ys).getD (argmax (y :: ys)) 0
    · rw [if_pos hx]
      cases j with
      | zero => simpa using le_of_lt hx
      | succ i =>
        simp only [List.getD_cons_succ]
        exact ih i (by simpa using hj)
    · rw [if_neg hx]
      cases j with
      | zero => simp
      | succ i =>
        simp only [List.getD_cons_zero, List.getD_cons_succ]
        exact le_trans (ih i (by simpa using hj)) (le_of_not_lt hx)

/-- Ties are broken by the lowest index: every entry strictly before `argmax`
is strictly below the maximal entry. -/
theorem getD_lt_getD_argmax :
    ∀ (v : List ℚ) (j : Nat), j < argmax v → v.getD j 0 < v.getD (argmax v) 0
  | [], j, hj => by simp [argmax] at hj
  | [x], j, hj => by simp [argmax] at hj
  | x :: y :: ys, j, hj => by
    have ih := fun (i : Nat) (hi : i < argmax (y :: ys)) => getD_lt_getD_argmax (y :: ys) i hi
    simp only [argmax] at hj ⊢
    by_cases hx : x < (y :: ys).getD (argmax (y :: ys)) 0
    · rw [if_pos hx] at hj ⊢
      cases j with
      | zero => simpa using hx
      | succ i =>
        simp only [List.getD_cons_succ]
        exact ih i (by omega)
    · rw [if_neg hx] at hj
      omega

theorem indicator_length (numClasses k : Nat) : (indicator numClasses k).length = numClasses := by
  simp [indicator]

theorem indicator_getD (numClasses k i : Nat) (hi : i < numClasses) :
    (indicator numClasses k).getD i 0 = if i = k - 1 then 1 else 0 := by
  have hi' : i < (indicator numClasses k).length := by
    rwa [indicator_length]
  rw [List.getD_eq_getElem _ _ hi']
  simp [indicator]

/-- The first maximal index of an indicator vector is the position of its 1. -/
theorem argmax_indicator (numClasses k : Nat) (h1 : 1 ≤ k) (h2 : k ≤ numClasses) :
    argmax (indicator numClasses k) = k - 1 := by
  have hk : k - 1 < numClasses := by omega
  have hlen := indicator_length numClasses k
  have hne : indicator numClasses k ≠ [] := by
    intro h
    rw [h] at hlen
    simp at hlen
    omega
  have ha : argmax (indicator numClasses k) < numClasses := by
    have := argmax_lt_length (indicator numClasses k) hne
    rwa [hlen] at this
  have hle := getD_le_getD_argmax (indicator numClasses k) (k - 1) (by rwa [hlen])
  rw [indicator_getD numClasses k (k - 1) hk, if_pos rfl] at hle
  by_contra hne'
  rw [indicator_getD numClasses k _ ha, if_neg hne'] at hle
  linarith

theorem encodeOne_eq_some (numClasses k : Nat) (v : List ℚ)
    (h : encodeOne numClasses k = some v) :
    1 ≤ k ∧ k ≤ numClasses ∧ v = indicator numClasses k := by
  by_cases hk : 1 ≤ k ∧ k ≤ numClasses
  · rw [encodeOne, if_pos hk] at h
    exact ⟨hk.1, hk.2, (Option.some_injective _ h).symm⟩
  · rw [encodeOne, if_neg hk] at h
    cases h

/-- Every vector in a successful batch encoding is the single-label encoding of
one of the input labels. -/
theorem mem_of_one_hot_encoding (labels : List Nat) (numClasses : Nat)
    (vs : List (List ℚ)) (henc : one_hot_encoding labels numClasses = some vs) :
    ∀ v ∈ vs, ∃ k ∈ labels, encodeOne numClasses k = some v := by
  induction labels generalizing vs with
  | nil =>
    rw [one_hot_encoding] at henc
    cases henc
    intro v hv
    simp at hv
  | cons a as ih =>
    rw [one_hot_encoding] at henc
    cases h1 : encodeOne numClasses a with
    | none => rw [h1] at henc; cases henc
    | some w =>
      cases h2 : one_hot_encoding as numClasses with
      | none => rw [h1, h2] at henc; cases henc
      | some ws =>
        rw [h1, h2] at henc
        cases henc
        intro v hv
        rcases List.mem_cons.mp hv with rfl | hmem
        · exact ⟨a, List.mem_cons_self a as, h1⟩
        · obtain ⟨k, hk, hkv⟩ := ih ws h2 v hmem
          exact ⟨k, List.mem_cons_of_mem a hk, hkv⟩

/-- The nonzero entries of an indicator vector are exactly one 1. -/
theorem filter_ne_zero_indicator (numClasses k : Nat) (h1 : 1 ≤ k) (h2 : k ≤ numClasses) :
    (indicator numClasses k).filter (fun x => decide (x ≠ 0)) = [1] := by
  have hj : k - 1 < numClasses := by omega
  rw [indicator]
  generalize k - 1 = j at hj
  clear h1 h2
  induction numClasses with
  | zero => omega
  | succ m ih =>
    rw [List.range_succ, List.map_append, List.filter_append]
    by_cases hjm : j < m
    · rw [ih hjm]
      have hm : (if m = j then (1 : ℚ) else 0) = 0 := by
        rw [if_neg (by omega)]
      simp [hm]
    · have hj' : j = m := by omega
      subst hj'
      have hall : ∀ x ∈ (List.range j).map (fun i => if i = j then (1 : ℚ) else 0),
          ¬((fun x => decide (x ≠ 0)) x = true) := by
        intro x hx
        obtain ⟨i, hi, rfl⟩ := List.mem_map.mp hx
        have hij : i < j := List.mem_range.mp hi
        simp [if_neg (by omega : ¬i = j)]
      rw [List.filter_eq_nil_iff.mpr hall]
      simp

/-- C1: for every ordered sequence of labels, each a positive integer in
`[1, numClasses]`, and every `numClasses ≥ 1`, decoding the encoding
reproduces the original sequence exactly, preserving order. -/
theorem encode_decode_round_trip (labels : List Nat) (numClasses : Nat)
    (hn : 1 ≤ numClasses) (hvalid : ∀ k ∈ labels, 1 ≤ k ∧ k ≤ numClasses) :
    ∃ vs, one_hot_encoding labels numClasses = some vs ∧
      one_hot_decoding vs numClasses = some labels := by
  induction labels with
  | nil => exact ⟨[], rfl, rfl⟩
  | cons k ks ih =>
    obtain ⟨h1, h2⟩ := hvalid k (List.mem_cons_self k ks)
    obtain ⟨vs, henc, hdec⟩ := ih (fun k hk => hvalid k (List.mem_cons_of_mem _ hk))
    refine ⟨indicator numClasses k :: vs, ?_, ?_⟩
    · rw [one_hot_encoding, henc, encodeOne, if_pos ⟨h1, h2⟩]
    · rw [one_hot_decoding, if_pos (indicator_length numClasses k), hdec,
        argmax_indicator numClasses k h1 h2]
      have : k - 1 + 1 = k := by omega
      rw [this]

theorem encode_decode_round_trip_witness :
    (1 ≤ 13 ∧ ∀ k ∈ [1, 13, 7], 1 ≤ k ∧ k ≤ 13) ∧
    ∃ vs, one_hot_encoding [1, 13, 7] 13 = some vs ∧
      one_hot_decoding vs 13 = some [1, 13, 7] :=
  ⟨⟨by decide, by decide⟩, encode_decode_round_trip [1, 13, 7] 13 (by decide) (by decide)⟩

/-- C2: for every label `k` in `[1, numClasses]`, `encodeOne` produces an
indicator vector of length `numClasses` with the single 1 at position `k - 1`
and 0 everywhere else; in particular `k = 1` encodes to index 0 and
`k = numClasses` encodes to index `numClasses - 1`. -/
theorem encode_single_label_correct (numClasses k : Nat)
    (h1 : 1 ≤ k) (h2 : k ≤ numClasses) :
    ∃ v, encodeOne numClasses k = some v ∧
      v.length = numClasses ∧
      (∀ i, i < numClasses → v.getD i 0 = if i = k - 1 then 1 else 0) ∧
      (k = 1 → v.getD 0 0 = 1) ∧
      (k = numClasses → v.getD (numClasses - 1) 0 = 1) := by
  refine ⟨indicator numClasses k, ?_, indicator_length numClasses k, ?_, ?_, ?_⟩
  · rw [encodeOne, if_pos ⟨h1, h2⟩]
  · exact fun i hi => indicator_getD numClasses k i hi
  · intro hk
    subst hk
    rw [indicator_getD numClasses 1 0 (by omega), if_pos (by omega)]
  · intro hk
    rw [indicator_getD numClasses k (numClasses - 1) (by omega), if_pos (by omega)]

theorem encode_single_label_correct_witness :
    (1 ≤ 7 ∧ 7 ≤ 13) ∧
    ∃ v, encodeOne 13 7 = some v ∧
      v.length = 13 ∧
      (∀ i, i < 13 → v.getD i 0 = if i = 7 - 1 then 1 else 0) ∧
      (7 = 1 → v.getD 0 0 = 1) ∧
      (7 = 13 → v.getD (13 - 1) 0 = 1) :=
  ⟨⟨by decide, by decide⟩, encode_single_label_correct 13 7 (by decide) (by decide)⟩

/-- C3: on vectors of uniform length `numClasses` (hard indicators or soft
probability vectors alike), decoding returns for each vector the one-indexed
label `argmax v + 1`, where `argmax` picks a maximal entry and breaks ties by
the lowest index. -/
theorem decode_argmax_correct (vectors : List (List ℚ)) (numClasses : Nat)
    (hlen : ∀ v ∈ vectors, v.length = numClasses) :
    one_hot_decoding vectors numClasses =
      some (vectors.map (fun v => argmax v + 1)) ∧
    ∀ v ∈ vectors, v ≠ [] →
      argmax v < v.length ∧
      (∀ j, j < v.length → v.getD j 0 ≤ v.getD (argmax v) 0) ∧
      (∀ j, j < argmax v → v.getD j 0 < v.getD (argmax v) 0) := by
  constructor
  · induction vectors with
    | nil => rfl
    | cons v vs ih =>
      rw [one_hot_decoding, if_pos (hlen v (List.mem_cons_self v vs)),
        ih (fun w hw => hlen w (List.mem_cons_of_mem v hw)), List.map_cons]
  · exact fun v _ hne =>
      ⟨argmax_lt_length v hne,
       fun j hj => getD_le_getD_argmax v j hj,
       fun j hj => getD_lt_getD_argmax v j hj⟩

theorem decode_argmax_correct_witness :
    (∀ v ∈ [[(1 : ℚ)/2, 1/2], [(1 : ℚ)/5, 4/5]], v.length = 2) ∧
    (one_hot_decoding [[(1 : ℚ)/2, 1/2], [(1 : ℚ)/5, 4/5]] 2 =
        some ([[(1 : ℚ)/2, 1/2], [(1 : ℚ)/5, 4/5]].map (fun v => argmax v + 1)) ∧
      ∀ v ∈ [[(1 : ℚ)/2, 1/2], [(1 : ℚ)/5, 4/5]], v ≠ [] →
        argmax v < v.length ∧
        (∀ j, j < v.length → v.getD j 0 ≤ v.getD (argmax v) 0) ∧
        (∀ j, j < argmax v → v.getD j 0 < v.getD (argmax v) 0)) :=
  ⟨by decide, decode_argmax_correct [[(1 : ℚ)/2, 1/2], [(1 : ℚ)/5, 4/5]] 2 (by decide)⟩

/-- C4: a label sequence containing some `k` outside `[1, numClasses]`
(in particular `k = 0` or `k = numClasses + 1`) makes encoding fail with the
invalid-input error `none`; no output is produced at all, so the label is
neither clipped nor wrapped into range. -/
theorem encode_invalid_label_error (labels : List Nat) (numClasses k : Nat)
    (hk : k ∈ labels) (hbad : k < 1 ∨ numClasses < k) :
    one_hot_encoding labels numClasses = none := by
  induction labels with
  | nil => simp at hk
  | cons a as ih =>
    rcases List.mem_cons.mp hk with rfl | hmem
    · have hnone : encodeOne numClasses k = none := by
        rw [encodeOne, if_neg (by omega)]
      rw [one_hot_encoding, hnone]
    · rw [one_hot_encoding, ih hmem]
      cases encodeOne numClasses a <;> rfl

theorem encode_invalid_label_error_witness :
    ((0 : Nat) ∈ [1, 0, 2] ∧ ((0 : Nat) < 1 ∨ 2 < 0)) ∧
    one_hot_encoding [1, 0, 2] 2 = none :=
  ⟨⟨by decide, by decide⟩,
    encode_invalid_label_error [1, 0, 2] 2 0 (by decide) (by decide)⟩

/-- C5: `one_hot_encoding` takes `numClasses` as an explicit parameter (visible
in its type), and every vector of a successful encoding has length equal to
that supplied `numClasses` — for every label sequence and every choice of
`numClasses`, independently of the maximum label observed in the input. -/
theorem encode_length_is_supplied_num_classes (labels : List Nat) (numClasses : Nat)
    (vs : List (List ℚ)) (henc : one_hot_encoding labels numClasses = some vs) :
    ∀ v ∈ vs, v.length = numClasses := by
  intro v hv
  obtain ⟨k, _, hkv⟩ := mem_of_one_hot_encoding labels numClasses vs henc v hv
  obtain ⟨_, _, rfl⟩ := encodeOne_eq_some numClasses k v hkv
  exact indicator_length numClasses k

theorem encode_length_is_supplied_num_classes_witness :
    one_hot_encoding [1, 2] 5 = some [indicator 5 1, indicator 5 2] ∧
    ∀ v ∈ [indicator 5 1, indicator 5 2], v.length = 5 :=
  ⟨by decide,
    encode_length_is_supplied_num_classes [1, 2] 5 [indicator 5 1, indicator 5 2] (by decide)⟩

/-- C6: an input sequence containing a vector whose length differs from the
configured `numClasses` makes decoding fail with the shape-mismatch error
`none`. -/
theorem decode_shape_mismatch_error (vectors : List (List ℚ)) (numClasses : Nat)
    (v : List ℚ) (hv : v ∈ vectors) (hlen : v.length ≠ numClasses) :
    one_hot_decoding vectors numClasses = none := by
  induction vectors with
  | nil => simp at hv
  | cons w ws ih =>
    rcases List.mem_cons.mp hv with rfl | hmem
    · rw [one_hot_decoding, if_neg hlen]
    · rw [one_hot_decoding]
      by_cases hw : w.length = numClasses
      · rw [if_pos hw, ih hmem]
      · rw [if_neg hw]

theorem decode_shape_mismatch_error_witness :
    ([(1 : ℚ), 0, 0] ∈ [[(1 : ℚ), 0], [(1 : ℚ), 0, 0]] ∧
      [(1 : ℚ), 0, 0].length ≠ 2) ∧
    one_hot_decoding [[(1 : ℚ), 0], [(1 : ℚ), 0, 0]] 2 = none :=
  ⟨⟨by decide, by decide⟩,
    decode_shape_mismatch_error [[(1 : ℚ), 0], [(1 : ℚ), 0, 0]] 2 [(1 : ℚ), 0, 0]
      (by decide) (by decide)⟩

/-- C7: every vector of a successful encoding has exactly one nonzero entry,
and that entry equals 1: the list of its nonzero entries is exactly `[1]`. -/
theorem encode_indicator_sparsity (labels : List Nat) (numClasses : Nat)
    (vs : List (List ℚ)) (henc : one_hot_encoding labels numClasses = some vs) :
    ∀ v ∈ vs, v.filter (fun x => decide (x ≠ 0)) = [1] := by
  intro v hv
  obtain ⟨k, _, hkv⟩ := mem_of_one_hot_encoding labels numClasses vs henc v hv
  obtain ⟨h1, h2, rfl⟩ := encodeOne_eq_some numClasses k v hkv
  exact filter_ne_zero_indicator numClasses k h1 h2

theorem encode_indicator_sparsity_witness :
    one_hot_encoding [2] 3 = some [indicator 3 2] ∧
    ∀ v ∈ [indicator 3 2], v.filter (fun x => decide (x ≠ 0)) = [1] :=
  ⟨by decide, encode_indicator_sparsity [2] 3 [indicator 3 2] (by decide)⟩

/-- C8: the encoder and decoder are pure functions of their arguments — two
calls with equal inputs return equal outputs, and the result depends on
nothing besides the arguments of the call. -/
theorem encode_decode_deterministic (labels₁ labels₂ : List Nat) (n₁ n₂ : Nat)
    (vectors₁ vectors₂ : List (List ℚ)) (m₁ m₂ : Nat)
    (hl : labels₁ = labels₂) (hn : n₁ = n₂)
    (hv : vectors₁ = vectors₂) (hm : m₁ = m₂) :
    one_hot_encoding labels₁ n₁ = one_hot_encoding labels₂ n₂ ∧
    one_hot_decoding vectors₁ m₁ = one_hot_decoding vectors₂ m₂ := by
  subst hl
  subst hn
  subst hv
  subst hm
  exact ⟨rfl, rfl⟩

theorem encode_decode_deterministic_witness :
    ([1, 2] = [1, 2] ∧ 3 = 3 ∧ [[(1 : ℚ), 0]] = [[(1 : ℚ), 0]] ∧ 2 = 2) ∧
    (one_hot_encoding [1, 2] 3 = one_hot_encoding [1, 2] 3 ∧
      one_hot_decoding [[(1 : ℚ), 0]] 2 = one_hot_decoding [[(1 : ℚ), 0]] 2) :=
  ⟨⟨rfl, rfl, rfl, rfl⟩,
    encode_decode_deterministic [1, 2] [1, 2] 3 3 [[(1 : ℚ), 0]] [[(1 : ℚ), 0]] 2 2
      rfl rfl rfl rfl⟩

/-- `np.eye(n) * np.random.rand(1).item()` inside `generate_data` in
`notebooks/model-zoo.ipynb`: the `n × n` matrix with the drawn scalar `c` on
the diagonal and 0 elsewhere. -/
def scaledEye (n : Nat) (c : ℚ) : List (List ℚ) :=
  (List.range n).map (fun i => (List.range n).map (fun j => if i = j then c else 0))

/-- `generate_data` from `notebooks/model-zoo.ipynb`.  numpy's random draws are
passed in explicitly: `aClassSamples` models the matrices drawn by
`np.random.rand(samples_per_class, n, n)`, `eyeScales` the scalars drawn by
`np.random.rand(1).item()` for each sample of the second class, and `indices`
the result of `np.random.shuffle` applied to `np.arange(data.shape[0])`.
The first class gets label 0, the second label 1; data and labels are stacked
(`np.vstack` / `np.hstack`) and then both indexed by the same shuffled
`indices` (`data[indices], labels[indices]`). -/
def generate_data (n samplesPerClass : Nat)
    (aClassSamples : List (List (List ℚ))) (eyeScales : List ℚ)
    (indices : List Nat) : List (List (List ℚ)) × List Nat :=
  let a_class_labels : List Nat := List.replicate samplesPerClass 0
  let another_class_samples : List (List (List ℚ)) := eyeScales.map (scaledEye n)
  let another_class_labels : List Nat := List.replicate samplesPerClass 1
  let data := aClassSamples ++ another_class_samples
  let labels := a_class_labels ++ another_class_labels
  (indices.map (fun i => data.getD i []), indices.map (fun i => labels.getD i 0))

/-- Mapping `getD` over all positions of a list gives back the list. -/
theorem map_range_getD {α : Type} (l : List α) (d : α) :
    (List.range l.length).map (fun i => l.getD i d) = l := by
  induction l with
  | nil => rfl
  | cons x xs ih =>
    rw [List.length_cons, List.range_succ_eq_map, List.map_cons, List.map_map]
    simpa [Function.comp_def] using ih

/-- C9: for `n ≥ 1` and `samplesPerClass ≥ 1`, `generate_data` returns data and
labels of first dimension `2 * samplesPerClass`, the labels hold exactly
`samplesPerClass` zeros and `samplesPerClass` ones, and the same index
permutation is applied to data and labels, so every returned sample stays
paired with the label of the class it was drawn from: label 0 samples come
from the random draws and label 1 samples are scaled identity matrices. -/
theorem generate_data_correct (n samplesPerClass : Nat)
    (hn : 1 ≤ n) (hs : 1 ≤ samplesPerClass)
    (aClassSamples : List (List (List ℚ))) (eyeScales : List ℚ) (indices : List Nat)
    (dataOut : List (List (List ℚ))) (labelsOut : List Nat)
    (ha : aClassSamples.length = samplesPerClass)
    (hc : eyeScales.length = samplesPerClass)
    (hperm : indices.Perm (List.range (2 * samplesPerClass)))
    (hgen : generate_data n samplesPerClass aClassSamples eyeScales indices
      = (dataOut, labelsOut)) :
    dataOut.length = 2 * samplesPerClass ∧
    labelsOut.length = 2 * samplesPerClass ∧
    labelsOut.count 0 = samplesPerClass ∧
    labelsOut.count 1 = samplesPerClass ∧
    (∀ x ∈ labelsOut, x = 0 ∨ x = 1) ∧
    ∀ p ∈ dataOut.zip labelsOut,
      (p.2 = 0 ∧ p.1 ∈ aClassSamples) ∨
      (p.2 = 1 ∧ ∃ c ∈ eyeScales, p.1 = scaledEye n c) := by
  simp only [generate_data] at hgen
  injection hgen with hgen1 hgen2
  subst hgen1
  subst hgen2
  have hilen : indices.length = 2 * samplesPerClass := by
    simpa using hperm.length_eq
  have hdlen : (aClassSamples ++ eyeScales.map (scaledEye n)).length
      = 2 * samplesPerClass := by
    simp [ha, hc]
    omega
  have hllen : (List.replicate samplesPerClass (0 : Nat)
      ++ List.replicate samplesPerClass 1).length = 2 * samplesPerClass := by
    simp
    omega
  have hlabPerm : (indices.map
      (fun i => (List.replicate samplesPerClass (0 : Nat)
        ++ List.replicate samplesPerClass 1).getD i 0)).Perm
      (List.replicate samplesPerClass (0 : Nat) ++ List.replicate samplesPerClass 1) := by
    have h := hperm.map
      (fun i => (List.replicate samplesPerClass (0 : Nat)
        ++ List.replicate samplesPerClass 1).getD i 0)
    rw [← hllen, map_range_getD] at h
    exact h
  have hmr : (List.range (2 * samplesPerClass)).map
      (fun i => ((aClassSamples ++ eyeScales.map (scaledEye n)).getD i [],
        (List.replicate samplesPerClass (0 : Nat)
          ++ List.replicate samplesPerClass 1).getD i 0))
      = (aClassSamples ++ eyeScales.map (scaledEye n)).zip
        (List.replicate samplesPerClass (0 : Nat) ++ List.replicate samplesPerClass 1) := by
    rw [← List.zip_map']
    congr 1
    · rw [← hdlen]
      exact map_range_getD _ _
    · rw [← hllen]
      exact map_range_getD _ _
  have hzip : ((indices.map
        (fun i => (aClassSamples ++ eyeScales.map (scaledEye n)).getD i [])).zip
      (indices.map
        (fun i => (List.replicate samplesPerClass (0 : Nat)
          ++ List.replicate samplesPerClass 1).getD i 0))).Perm
      ((aClassSamples ++ eyeScales.map (scaledEye n)).zip
        (List.replicate samplesPerClass (0 : Nat) ++ List.replicate samplesPerClass 1)) := by
    rw [List.zip_map']
    have h := hperm.map
      (fun i => ((aClassSamples ++ eyeScales.map (scaledEye n)).getD i [],
        (List.replicate samplesPerClass (0 : Nat)
          ++ List.replicate samplesPerClass 1).getD i 0))
    rw [hmr] at h
    exact h
  refine ⟨by simp [hilen], by simp [hilen], ?_, ?_, ?_, ?_⟩
  · rw [hlabPerm.count_eq 0]
    simp [List.count_replicate]
  · rw [hlabPerm.count_eq 1]
    simp [List.count_replicate]
  · intro x hx
    have hx' := hlabPerm.mem_iff.mp hx
    rcases List.mem_append.mp hx' with h | h
    · exact Or.inl (List.eq_of_mem_replicate h)
    · exact Or.inr (List.eq_of_mem_replicate h)
  · intro p hp
    have hp' := hzip.mem_iff.mp hp
    rw [List.zip_append (by simp [ha])] at hp'
    obtain ⟨x, y⟩ := p
    rcases List.mem_append.mp hp' with h | h
    · obtain ⟨hx, hy⟩ := List.of_mem_zip h
      exact Or.inl ⟨List.eq_of_mem_replicate hy, hx⟩
    · obtain ⟨hx, hy⟩ := List.of_mem_zip h
      obtain ⟨c, hcmem, hcx⟩ := List.mem_map.mp hx
      exact Or.inr ⟨List.eq_of_mem_replicate hy, c, hcmem, hcx.symm⟩

theorem generate_data_correct_witness :
    (1 ≤ 1 ∧
      [[[(5 : ℚ)]]].length = 1 ∧
      [(7 : ℚ)].length = 1 ∧
      List.Perm [1, 0] (List.range (2 * 1)) ∧
      generate_data 1 1 [[[(5 : ℚ)]]] [(7 : ℚ)] [1, 0]
        = ([[[(7 : ℚ)]], [[(5 : ℚ)]]], [1, 0])) ∧
    ([[[(7 : ℚ)]], [[(5 : ℚ)]]].length = 2 * 1 ∧
      ([1, 0] : List Nat).length = 2 * 1 ∧
      ([1, 0] : List Nat).count 0 = 1 ∧
      ([1, 0] : List Nat).count 1 = 1 ∧
      (∀ x ∈ ([1, 0] : List Nat), x = 0 ∨ x = 1) ∧
      ∀ p ∈ ([[[(7 : ℚ)]], [[(5 : ℚ)]]].zip ([1, 0] : List Nat)),
        (p.2 = 0 ∧ p.1 ∈ [[[(5 : ℚ)]]]) ∨
        (p.2 = 1 ∧ ∃ c ∈ [(7 : ℚ)], p.1 = scaledEye 1 c)) :=
  ⟨⟨by decide, by decide, by decide, by decide, by decide⟩,
    generate_data_correct 1 1 (by decide) (by decide) [[[(5 : ℚ)]]] [(7 : ℚ)] [1, 0]
      [[[(7 : ℚ)]], [[(5 : ℚ)]]] [1, 0] (by decide) (by decide) (by decide) (by decide)⟩

/-- `get_imagenet_labels` from `notebooks/model-zoo.ipynb` (the file download
and `json.load` are external I/O; the loaded JSON object is passed in as the
list of its entries `(index, (identifier, label))`, the key already parsed to a
natural number as by Python's `int(index)` on the decimal string key, in
iteration order).  `[None] * len(labels_json)` is the initial list of `none`s,
and the loop `labels[int(index)] = label` sets position `index` to the second
component of the value pair. -/
def get_imagenet_labels (labelsJson : List (Nat × String × String)) :
    List (Option String) :=
  labelsJson.foldl (fun labels kv => labels.set kv.1 (some kv.2.2))
    (List.replicate labelsJson.length none)

theorem foldl_set_length (ps : List (Nat × String × String)) :
    ∀ acc : List (Option String),
      (ps.foldl (fun labels kv => labels.set kv.1 (some kv.2.2)) acc).length
        = acc.length := by
  induction ps with
  | nil => intro acc; rfl
  | cons p ps ih =>
    intro acc
    rw [List.foldl_cons, ih, List.length_set]

theorem foldl_set_getElem?_of_not_mem (ps : List (Nat × String × String)) :
    ∀ (acc : List (Option String)) (j : Nat), j ∉ ps.map Prod.fst →
      (ps.foldl (fun labels kv => labels.set kv.1 (some kv.2.2)) acc)[j]?
        = acc[j]? := by
  induction ps with
  | nil => intro acc j _; rfl
  | cons p ps ih =>
    intro acc j hj
    simp only [List.map_cons, List.mem_cons, not_or] at hj
    rw [List.foldl_cons, ih _ j hj.2, List.getElem?_set_ne (fun h => hj.1 h.symm)]

theorem foldl_set_getElem?_of_mem (ps : List (Nat × String × String)) :
    ∀ acc : List (Option String),
      (ps.map Prod.fst).Nodup →
      (∀ q ∈ ps, q.1 < acc.length) →
      ∀ p ∈ ps,
        (ps.foldl (fun labels kv => labels.set kv.1 (some kv.2.2)) acc)[p.1]?
          = some (some p.2.2) := by
  induction ps with
  | nil => intro acc _ _ p hp; simp at hp
  | cons q ps ih =>
    intro acc hnd hlt p hp
    simp only [List.map_cons, List.nodup_cons] at hnd
    rw [List.foldl_cons]
    rcases List.mem_cons.mp hp with rfl | hmem
    · rw [foldl_set_getElem?_of_not_mem ps _ p.1 hnd.1]
      exact List.getElem?_set_self (hlt p (List.mem_cons_self p ps))
    · exact ih _ hnd.2
        (fun r hr => by rw [List.length_set]; exact hlt r (List.mem_cons_of_mem q hr))
        p hmem

/-- C10: for a labels JSON object whose keys are the decimal strings for
`0 .. n-1` (each mapped to an `(identifier, label)` pair), the returned list
has length `n`, its entry at the position given by each key is that key's
label, and no `None` entry remains. -/
theorem get_imagenet_labels_correct (labelsJson : List (Nat × String × String))
    (hkeys : (labelsJson.map Prod.fst).Perm (List.range labelsJson.length)) :
    (get_imagenet_labels labelsJson).length = labelsJson.length ∧
    (∀ p ∈ labelsJson,
      (get_imagenet_labels labelsJson)[p.1]? = some (some p.2.2)) ∧
    (∀ x ∈ get_imagenet_labels labelsJson, x.isSome) := by
  have hnd : (labelsJson.map Prod.fst).Nodup :=
    hkeys.nodup_iff.mpr (List.nodup_range _)
  have hlt : ∀ q ∈ labelsJson, q.1 < labelsJson.length := by
    intro q hq
    have hq' : q.1 ∈ labelsJson.map Prod.fst := List.mem_map_of_mem Prod.fst hq
    exact List.mem_range.mp (hkeys.mem_iff.mp hq')
  have hlen : (get_imagenet_labels labelsJson).length = labelsJson.length := by
    rw [get_imagenet_labels, foldl_set_length, List.length_replicate]
  have hset : ∀ p ∈ labelsJson,
      (get_imagenet_labels labelsJson)[p.1]? = some (some p.2.2) := by
    intro p hp
    rw [get_imagenet_labels]
    exact foldl_set_getElem?_of_mem labelsJson _ hnd
      (fun q hq => by rw [List.length_replicate]; exact hlt q hq) p hp
  refine ⟨hlen, hset, ?_⟩
  intro x hx
  obtain ⟨i, hi, hix⟩ := List.mem_iff_getElem.mp hx
  have hi' : i < labelsJson.length := hlen ▸ hi
  have himem : i ∈ labelsJson.map Prod.fst :=
    hkeys.mem_iff.mpr (List.mem_range.mpr hi')
  obtain ⟨p, hp, hpi⟩ := List.mem_map.mp himem
  have hval := hset p hp
  rw [hpi, List.getElem?_eq_getElem hi, hix] at hval
  rw [Option.some_injective _ hval]
  rfl

theorem get_imagenet_labels_correct_witness :
    (([((1 : Nat), ("n01443537", "goldfish")), ((0 : Nat), ("n01440764", "tench"))].map
        Prod.fst).Perm
      (List.range
        ([((1 : Nat), ("n01443537", "goldfish")),
          ((0 : Nat), ("n01440764", "tench"))].length))) ∧
    ((get_imagenet_labels
        [((1 : Nat), ("n01443537", "goldfish")),
          ((0 : Nat), ("n01440764", "tench"))]).length
      = ([((1 : Nat), ("n01443537", "goldfish")),
          ((0 : Nat), ("n01440764", "tench"))].length) ∧
    (∀ p ∈ [((1 : Nat), ("n01443537", "goldfish")),
        ((0 : Nat), ("n01440764", "tench"))],
      (get_imagenet_labels
        [((1 : Nat), ("n01443537", "goldfish")),
          ((0 : Nat), ("n01440764", "tench"))])[p.1]? = some (some p.2.2)) ∧
    (∀ x ∈ get_imagenet_labels
        [((1 : Nat), ("n01443537", "goldfish")),
          ((0 : Nat), ("n01440764", "tench"))], x.isSome)) :=
  ⟨by decide,
    get_imagenet_labels_correct
      [((1 : Nat), ("n01443537", "goldfish")), ((0 : Nat), ("n01440764", "tench"))]
      (by decide)⟩

end Depiction
